import Mathlib

/-
Verification of the neatocal commit-calendar generator.

This file gives a shallow embedding of the Python sources
(config.py, github_calendar.py, merge_calendars.py, convert_to_standalone.py)
and proves properties of the embedded definitions.

Modelling conventions:
  * Python dates are modelled as natural numbers (day ordinals); only their
    linear order is relevant to the code under study, and `strftime` is a
    strictly monotone injection from dates to the emitted `YYYY-MM-DD` keys.
  * Python dicts are modelled as insertion-ordered association lists, with
    assignment updating an existing key in place or appending a fresh key,
    exactly mirroring CPython's ordered-dict semantics.
  * `count / max_count` in `calculate_level` is compared against 0.25 / 0.5 /
    0.75; the comparisons are embedded as the exactly equivalent cross
    multiplied natural-number comparisons (4*count <= max_count, etc.).
-/

/-! ### config.py -/

/-- config.py PROJECT_MAPPING: repository name to short project label. -/
def PROJECT_MAPPING : List (String × String) :=
  [("topaz-stb-test-system", "topaz"),
   ("athena-runner-ott", "ott"),
   ("beyond_xray_services", "xray"),
   ("netMeterUplusHome", "netmeter"),
   ("NetAnalyzer", "netmeter"),
   ("NetAnalyzerLGHV", "netmeter"),
   ("web-speed-service-dione", "ott"),
   ("EvoService", "EvoRev2")]

/-- config.py PROJECT_COLORS: project label to display color. -/
def PROJECT_COLORS : List (String × String) :=
  [("topaz", "#ef4444"),
   ("EvoRev2", "#3b82f6"),
   ("vos", "#22c55e"),
   ("ott", "#f59e0b"),
   ("netmeter", "#8b5cf6"),
   ("xray", "#06b6d4")]

/-- config.py DEFAULT_COLOR. -/
def DEFAULT_COLOR : String := "#6b7280"

/-! ### github_calendar.py: data model and stage-2 transform -/

/-- Source tag of a commit record (`'source': 'github' | 'gitlab'`). -/
inductive CommitSource where
  | github
  | gitlab
deriving DecidableEq

/-- One commit record as built by the collectors:
`{'repo': ..., 'date': ..., 'source': ...}`. -/
structure CommitRecord where
  repo : String
  date : Nat
  src : CommitSource
deriving DecidableEq

/-- github_calendar.py `normalize_project_name`:
`PROJECT_MAPPING.get(repo_name, repo_name)`. -/
def normalize_project_name (repo_name : String) : String :=
  (PROJECT_MAPPING.lookup repo_name).getD repo_name

/-- github_calendar.py `calculate_level`.  The Python code computes
`ratio = count / max_count` and tests `ratio <= 0.25`, `ratio <= 0.5`,
`ratio <= 0.75`; each test is embedded as its exact cross-multiplied
natural-number equivalent. -/
def calculate_level (count max_count : Nat) : Nat :=
  if count = 0 then 0
  else if 4 * count ≤ max_count then 1
  else if 2 * count ≤ max_count then 2
  else if 4 * count ≤ 3 * max_count then 3
  else 4

/-- One step of `project_counts[project] += 1` on an insertion-ordered
counter dict (`defaultdict(int)`). -/
def bumpCount : List (String × Nat) → String → List (String × Nat)
  | [], k => [(k, 1)]
  | (k₀, n) :: rest, k =>
      if k₀ = k then (k₀, n + 1) :: rest else (k₀, n) :: bumpCount rest k

/-- The per-date counter loop of `convert_to_heatmap`:
`for commit in commits: project_counts[normalize_project_name(commit['repo'])] += 1`. -/
def projectCounts (commits : List CommitRecord) : List (String × Nat) :=
  commits.foldl (fun acc c => bumpCount acc (normalize_project_name c.repo)) []

/-- Python `max(project_counts, key=project_counts.get)`: left fold keeping the
current best and replacing it only on a strictly greater count, so the
first-encountered key wins ties; `none` on an empty dict (Python raises). -/
def maxByCount : List (String × Nat) → Option String
  | [] => none
  | x :: rest => some (rest.foldl (fun best y => if best.2 < y.2 then y else best) x).1

/-- The per-date summary value `{'project': ..., 'count': ...}`. -/
structure DaySummary where
  project : String
  count : Nat
deriving DecidableEq

/-- Summary of one date bucket inside `convert_to_heatmap`: per-label counts,
the representative project, and the summed total. The Python code raises on
an empty record list (`max` of an empty dict), which never happens because
bucket values are only created by appending; the embedding totalises that
case with `""`. -/
def summarizeDay (commits : List CommitRecord) : DaySummary :=
  let pc := projectCounts commits
  { project := (maxByCount pc).getD "", count := (pc.map Prod.snd).sum }

/-- One heatmap entry emitted by `convert_to_heatmap`. -/
structure HeatmapEntry where
  date : Nat
  count : Nat
  project : String
  level : Nat
deriving DecidableEq

/-- Order on date-summary pairs used to embed Python's
`sorted(date_summary.items())` (a stable ascending sort on the date key). -/
def dateLe (a b : Nat × DaySummary) : Prop := a.1 ≤ b.1

instance : DecidableRel dateLe := fun a b => Nat.decLe a.1 b.1

instance : IsTotal (Nat × DaySummary) dateLe := ⟨fun a b => Nat.le_total a.1 b.1⟩

instance : IsTrans (Nat × DaySummary) dateLe := ⟨fun _ _ _ h₁ h₂ => Nat.le_trans h₁ h₂⟩

/-- The `date_summary` local of `convert_to_heatmap`: each date of the
bucket paired with its summary (same keys, in dict order). -/
def dateSummaryOf (daily_commits : List (Nat × List CommitRecord)) :
    List (Nat × DaySummary) :=
  daily_commits.map (fun p => (p.1, summarizeDay p.2))

/-- The `max_count` local of `convert_to_heatmap`:
`max(d['count'] for d in date_summary.values()) if date_summary else 1`. -/
def maxCountOf (date_summary : List (Nat × DaySummary)) : Nat :=
  match date_summary.map (fun q => q.2.count) with
  | [] => 1
  | c :: cs => cs.foldl Nat.max c

/-- github_calendar.py `convert_to_heatmap`: early-return `[]` on an empty
bucket; otherwise summarise each date, compute `max_count`, sort
`date_summary.items()` by date (stably, as `sorted` does) and emit one
entry per date with its activity level. -/
def convert_to_heatmap (daily_commits : List (Nat × List CommitRecord)) :
    List HeatmapEntry :=
  if daily_commits.isEmpty then []
  else
    (List.insertionSort dateLe (dateSummaryOf daily_commits)).map (fun q =>
      { date := q.1, count := q.2.count, project := q.2.project,
        level := calculate_level q.2.count
          (maxCountOf (dateSummaryOf daily_commits)) })

/-! ### github_calendar.py: stage-3 NeatoCal data generation -/

/-- The fixed `param` block of the NeatoCal data object. -/
structure NeatocalParam where
  year : Nat
  layout : String
  cell_height : String
  start_day : Nat
  highlight_color : String
  color_cell : List (Nat × String)
deriving DecidableEq

/-- The NeatoCal data object: the `param` block plus the top-level
date-keyed entries (`neatocal_data[date] = project`), kept as an
insertion-ordered dict. -/
structure NeatocalData where
  param : NeatocalParam
  dateLabels : List (Nat × String)
deriving DecidableEq

/-- Python dict assignment `d[k] = v` on an insertion-ordered dict with `Nat`
keys: update in place if the key exists, else append. -/
def dictInsertNat (d : List (Nat × String)) (k : Nat) (v : String) :
    List (Nat × String) :=
  if d.any (fun p => p.1 == k) then
    d.map (fun p => if p.1 == k then (p.1, v) else p)
  else d ++ [(k, v)]

/-- Lookup `PROJECT_COLORS.get(project, DEFAULT_COLOR)` as used by
`generate_neatocal_data`. -/
def projectColor (project : String) : String :=
  (PROJECT_COLORS.lookup project).getD DEFAULT_COLOR

/-- github_calendar.py `generate_neatocal_data`: the fixed `param` block, one
top-level date key per entry holding the project label, and one appended
`color_cell` pair per entry. -/
def generate_neatocal_data (heatmap_data : List HeatmapEntry) (year : Nat) :
    NeatocalData :=
  heatmap_data.foldl
    (fun acc e =>
      { param := { acc.param with
          color_cell := acc.param.color_cell ++ [(e.date, projectColor e.project)] },
        dateLabels := dictInsertNat acc.dateLabels e.date e.project })
    { param := { year := year, layout := "aligned-weekdays",
                 cell_height := "1.5em", start_day := 0,
                 highlight_color := "#fef9c3", color_cell := [] },
      dateLabels := [] }

/-! ### github_calendar.py: main orchestration (output files) -/

/-- The two per-person files written by `main` for a person with data. -/
def person_files (display_name : String) : List String :=
  ["commit_calendar - " ++ display_name ++ ".html",
   "commit_calendar_data - " ++ display_name ++ ".json"]

/-- One iteration of `main`'s per-user loop, tracking the written files and
the `user_calendars` size: `if not all_commits: continue` skips a person
whose merged bucket is empty. -/
def mainStep (acc : List String × Nat)
    (p : String × List (Nat × List CommitRecord)) : List String × Nat :=
  if p.2.isEmpty then acc else (acc.1 ++ person_files p.1, acc.2 + 1)

/-- github_calendar.py `main`, restricted to its observable file outputs:
per-person files for every person with a non-empty merged bucket, then
`commit_calendar_all.html` if `len(user_calendars) >= 1`. -/
def main_output_files (people : List (String × List (Nat × List CommitRecord))) :
    List String :=
  let r := people.foldl mainStep ([], 0)
  if 1 ≤ r.2 then r.1 ++ ["commit_calendar_all.html"] else r.1

/-! ### merge_calendars.py: filename handling and main flow

Filenames are handled as `List Char` so that the glob pattern, `Path.stem`
and `str.replace` can be embedded operationally. -/

/-- The literal filename fragment `"commit_calendar - "` used both by the
generator's f-string and by the merger's glob pattern and `replace` call. -/
def calPrefix : List Char := "commit_calendar - ".data

/-- The literal `".html"` extension. -/
def htmlExt : List Char := ".html".data

/-- The per-person HTML filename written by github_calendar.py `main`:
`f"commit_calendar - {display_name}.html"`. -/
def output_filename (display_name : List Char) : List Char :=
  calPrefix ++ display_name ++ htmlExt

/-- The glob pattern `"commit_calendar - *.html"` of `find_calendar_files`:
a directory-entry name matches iff it is the literal prefix, then any
(possibly empty) run of characters, then the literal `.html`. -/
def matchesCalendarPattern (f : List Char) : Bool :=
  calPrefix.isPrefixOf f && htmlExt.isSuffixOf f &&
    decide (calPrefix.length + htmlExt.length ≤ f.length)

/-- Python `pathlib.Path(...).stem` on a plain filename: drop the suffix starting at
the last dot, provided that a dot exists at an index `i` with
`0 < i < len - 1` (CPython's `rfind`-based suffix rule). -/
def stemList (s : List Char) : List Char :=
  let r := s.reverse
  let i := r.findIdx (fun c => c = '.')
  if i < r.length then
    let j := s.length - 1 - i
    if 0 < j ∧ j < s.length - 1 then s.take j else s
  else s

/-- Fuel-indexed body of Python `str.replace(pat, "")`: scan left to right,
consuming each leftmost non-overlapping occurrence of `pat`. The fuel only
bounds recursion depth; `fuel ≥ length` makes it inessential. -/
def replaceAllAux (pat : List Char) : Nat → List Char → List Char
  | 0, s => s
  | _ + 1, [] => []
  | fuel + 1, c :: rest =>
      if pat ≠ [] ∧ pat.isPrefixOf (c :: rest) then
        replaceAllAux pat fuel ((c :: rest).drop pat.length)
      else c :: replaceAllAux pat fuel rest

/-- Python `s.replace(pat, "")`: remove every leftmost non-overlapping
occurrence of `pat` from `s`. -/
def replaceAll (pat s : List Char) : List Char :=
  replaceAllAux pat s.length s

/-- merge_calendars.py name extraction:
`f.stem.replace("commit_calendar - ", "")`. -/
def extractName (f : List Char) : List Char :=
  replaceAll calPrefix (stemList f)

/-- Order on `(path, name)` pairs used to embed
`files.sort(key=lambda x: x['name'].lower())`. -/
def fileLe (a b : List Char × List Char) : Prop :=
  a.2.map Char.toLower ≤ b.2.map Char.toLower

instance : DecidableRel fileLe := fun a b =>
  inferInstanceAs (Decidable (a.2.map Char.toLower ≤ b.2.map Char.toLower))

instance : IsTotal (List Char × List Char) fileLe :=
  ⟨fun a b => le_total (a.2.map Char.toLower) (b.2.map Char.toLower)⟩

instance : IsTrans (List Char × List Char) fileLe :=
  ⟨fun _ _ _ h₁ h₂ => le_trans h₁ h₂⟩

/-- merge_calendars.py `find_calendar_files`: keep the directory entries
matching the glob pattern, pair each with its extracted name, and sort
(stably, as `list.sort` does) by the lower-cased name. -/
def find_calendar_files (entries : List (List Char)) :
    List (List Char × List Char) :=
  List.insertionSort fileLe
    ((entries.filter matchesCalendarPattern).map (fun f => (f, extractName f)))

/-- The merger's extraction loop: for each found file, try to recover its
embedded calendar data (`extract_calendar_data`, abstracted as an oracle from
the file's path to an optional parsed object); append `(name, data)` on
success, skip the file (with a log line) otherwise. -/
def merge_extract {α : Type} (extract : List Char → Option α)
    (files : List (List Char × List Char)) : List (List Char × α) :=
  files.foldl
    (fun cals f =>
      match extract f.1 with
      | some d => cals ++ [(f.2, d)]
      | none => cals)
    []

/-- Python dict assignment for `calendar_data_js[name] = data`. -/
def dictInsertName {α : Type} (d : List (List Char × α)) (k : List Char)
    (v : α) : List (List Char × α) :=
  if d.any (fun p => p.1 == k) then
    d.map (fun p => if p.1 == k then (p.1, v) else p)
  else d ++ [(k, v)]

/-- Observable outcome of merge_calendars.py `main`: abort because no file
matched, abort because no file yielded data, or a merged document described
by its tab-button labels (one per recovered calendar, in order) and the keys
of the embedded `ALL_CALENDAR_DATA` object. -/
inductive MergeResult (α : Type) where
  | noFiles
  | noData
  | merged (tabs : List (List Char)) (dataKeys : List (List Char))
deriving DecidableEq

/-- merge_calendars.py `main`: find files, abort if none; extract data,
abort if none recovered; otherwise build the tabbed document, with one tab
button per recovered calendar and `ALL_CALENDAR_DATA` built by dict
assignment keyed on the extracted names. -/
def merge_calendars_main {α : Type} (extract : List Char → Option α)
    (entries : List (List Char)) : MergeResult α :=
  let files := find_calendar_files entries
  if files.isEmpty then .noFiles
  else
    let calendars := merge_extract extract files
    if calendars.isEmpty then .noData
    else
      .merged (calendars.map Prod.fst)
        ((calendars.foldl (fun js c => dictInsertName js c.1 c.2) []).map Prod.fst)

/-! ### convert_to_standalone.py

The converter rewrites an HTML document with three `re.sub` calls and one
conditional insertion. The document is embedded as a token list: each token
is either a maximal match of one of the three replacement patterns, an
opening head tag (the target of the fonts insertion, `count=1`), a piece of
text containing the literal `fonts.googleapis.com`, one of the blocks the
converter itself inserts, or any other text. The vendored asset files
(whose contents are inlined) contain neither the bundle link/script tags nor
the string `fonts.googleapis.com`, which the token alphabet reflects by
making the inserted blocks distinct constructors. -/

/-- Token alphabet for the converter's view of an HTML document. -/
inductive HtmlTok where
  | fontLink
  | cssLink
  | jsScript
  | headOpen
  | fontsRef
  | inlineStyle (css : String)
  | inlineScript (js : String)
  | googleFonts
  | other (text : String)
deriving DecidableEq

/-- Whether a token contains the literal `fonts.googleapis.com` (the guard
`"fonts.googleapis.com" not in html_content`). The inserted Google-Fonts
block contains it; the three removed/replaced bundle tags and the inlined
asset contents do not. -/
def hasFontsRef : HtmlTok → Bool
  | .fontsRef => true
  | .googleFonts => true
  | _ => false

/-- The three `re.sub` calls of `convert_to_standalone`, acting on one token:
the Oswald font link is removed, the `neatocal.css` link becomes the inline
style block, the `neatocal.js` script becomes the inline script block, and
every other token is left alone. `re.sub` replaces every occurrence. -/
def replaceTok (css js : String) : HtmlTok → List HtmlTok
  | .fontLink => []
  | .cssLink => [.inlineStyle css]
  | .jsScript => [.inlineScript js]
  | t => [t]

/-- The `count=1` insertion `re.sub(r"(<head[^>]*>)", ..., count=1)`: insert
a block right after the first opening head tag; a document with no head tag
is left unchanged. -/
def insertAfterHead (block : HtmlTok) : List HtmlTok → List HtmlTok
  | [] => []
  | t :: rest =>
      if t = HtmlTok.headOpen then t :: block :: rest
      else t :: insertAfterHead block rest

/-- The three substitutions applied across the whole document. -/
def replaceDoc (css js : String) (doc : List HtmlTok) : List HtmlTok :=
  doc.foldr (fun t acc => replaceTok css js t ++ acc) []

/-- convert_to_standalone.py `convert_to_standalone`, restricted to its
content rewrite: apply the three substitutions everywhere, then insert the
Google-Fonts block after the first head tag unless a
`fonts.googleapis.com` reference is already present. -/
def convert_to_standalone (css js : String) (doc : List HtmlTok) :
    List HtmlTok :=
  let doc2 := replaceDoc css js doc
  if doc2.any hasFontsRef then doc2 else insertAfterHead .googleFonts doc2

/-! ### github_calendar.py: GitLab collector (primary path) -/

/-- A GitLab project as seen by the collector (`group.projects.list`). -/
structure GitlabProject where
  id : Nat
  name : String
deriving DecidableEq

/-- A GitLab user as returned by `gl.users.list`. -/
structure GitlabUser where
  id : Nat
  name : String
deriving DecidableEq

/-- A `pushed` event: owning project id, parsed event date, and the optional
`push_data['commit_count']`. -/
structure GitlabEvent where
  project_id : Nat
  date : Nat
  commit_count : Option Nat
deriving DecidableEq

/-- The GitLab API calls made inside the primary path's `try` block, each of
which either returns a value or raises (modelled with `Except`). -/
structure GitlabEnv where
  group : Except String Unit
  projects : Except String (List GitlabProject)
  usersExact : Except String (List GitlabUser)
  usersSearch : Except String (List GitlabUser)
  events : Except String (List GitlabEvent)

/-- Appending `daily_commits[d].append(c)` on the insertion-ordered date bucket. -/
def bucketAppend (daily : List (Nat × List CommitRecord)) (d : Nat)
    (c : CommitRecord) : List (Nat × List CommitRecord) :=
  match daily with
  | [] => [(d, [c])]
  | (k, l) :: rest =>
      if k = d then (k, l ++ [c]) :: rest else (k, l) :: bucketAppend rest d c

/-- Lookup `project_names.get(event.project_id, ...)` with its
`f"project_..."` default. -/
def projectNameOf (projects : List GitlabProject) (pid : Nat) : String :=
  ((projects.find? (fun p => p.id == pid)).map GitlabProject.name).getD
    ("project_" ++ toString pid)

/-- The body of the primary path's `try` block in `collect_gitlab_commits`:
resolve the group, list its projects, look the user up by exact username and
then by search; if no user is found, return the (still empty) bucket early;
otherwise list the `pushed` events and append `commit_count` (default 1)
records per event, skipping events outside the group's project set or the
date window. Console logging is not modelled. -/
def gitlab_primary (env : GitlabEnv) (start_date end_date : Nat) :
    Except String (List (Nat × List CommitRecord)) := do
  let _ ← env.group
  let projects ← env.projects
  let project_ids := projects.map GitlabProject.id
  let usersFirst ← env.usersExact
  let users ← if usersFirst.isEmpty then env.usersSearch else pure usersFirst
  if users.isEmpty then
    return []
  else
    let events ← env.events
    return events.foldl
      (fun daily ev =>
        if project_ids.contains ev.project_id then
          if start_date ≤ ev.date ∧ ev.date ≤ end_date then
            let n := ev.commit_count.getD 1
            let rec₀ : CommitRecord :=
              { repo := projectNameOf projects ev.project_id, date := ev.date,
                src := CommitSource.gitlab }
            (List.range n).foldl (fun acc _ => bucketAppend acc ev.date rec₀) daily
          else daily
        else daily)
      []

/-- Observable outcome of `collect_gitlab_commits`: the primary path's
result, or the fall back to `collect_gitlab_commits_legacy` taken when the
`try` block raises. -/
inductive GitlabOutcome where
  | primary (result : List (Nat × List CommitRecord))
  | legacyFallback
deriving DecidableEq

/-- github_calendar.py `collect_gitlab_commits`: run the primary path; on
any raised exception fall back to the legacy per-project scan. -/
def collect_gitlab_commits (env : GitlabEnv) (start_date end_date : Nat) :
    GitlabOutcome :=
  match gitlab_primary env start_date end_date with
  | .ok res => .primary res
  | .error _ => .legacyFallback

/-! ### github_calendar.py: legacy author-matching predicate -/

/-- Python substring test `needle.lower() in hay.lower()`. -/
def lowerContains (hay needle : String) : Bool :=
  decide (needle.toLower.data <:+: hay.toLower.data)

/-- The `author_match` predicate of `collect_gitlab_commits_legacy`:
exact author-name equality, or case-insensitive containment of the username
in the author name or the author email. -/
def author_match (username author_name author_email : String) : Bool :=
  (author_name == username) || lowerContains author_name username ||
    lowerContains author_email username

/-- The same predicate with the exact-equality disjunct dropped, for the
redundancy comparison. -/
def author_match_reduced (username author_name author_email : String) : Bool :=
  lowerContains author_name username || lowerContains author_email username

/-- Specification-side description of the dict-order argmax: `p` occurs in
the per-label count list with some count `n` such that every label counted
before it has a strictly smaller count and every label counted after it has
a count at most `n` — i.e. `p` is the first-encountered label with the
highest count. -/
def firstMax (pc : List (String × Nat)) (p : String) : Prop :=
  ∃ n s₁ s₂, pc = s₁ ++ (p, n) :: s₂ ∧ (∀ q ∈ s₁, q.2 < n) ∧ (∀ q ∈ s₂, q.2 ≤ n)

/-- Concrete candidate entries for the merger test: three matching files. -/
def exEntries : List (List Char) :=
  ["commit_calendar - B.html".data, "commit_calendar - A.html".data,
   "commit_calendar - C.html".data]

/-- Extraction oracle for the merger test: the file for person C has no
embedded `CALENDAR_DATA` assignment, so its extraction yields nothing. -/
def exExtract : List Char → Option Nat :=
  fun f => if f = "commit_calendar - C.html".data then none else some 0

/-- Two candidate files whose extracted names collide: the second filename
contains the `"commit_calendar - "` fragment twice, and the merger's
`replace` call removes every occurrence. -/
def colEntries : List (List Char) :=
  ["commit_calendar - A.html".data,
   "commit_calendar - commit_calendar - A.html".data]

/-- Extraction oracle that succeeds on every file. -/
def colExtract : List Char → Option Nat := fun _ => some 0

/-- A commit record in repository "A" (for the concrete aggregation test). -/
def recA : CommitRecord := { repo := "A", date := 0, src := CommitSource.github }

/-- A commit record in repository "B" (for the concrete aggregation test). -/
def recB : CommitRecord := { repo := "B", date := 0, src := CommitSource.github }

/-! ### Helper lemmas -/

theorem lookup_none {β : Type} {l : List (String × β)} {r : String}
    (h : r ∉ l.map Prod.fst) : l.lookup r = none := by
  induction l with
  | nil => rfl
  | cons p t ih =>
      obtain ⟨k, v⟩ := p
      simp only [List.map_cons, List.mem_cons] at h
      push_neg at h
      simp only [List.lookup]
      have hk : (r == k) = false := beq_eq_false_iff_ne.mpr h.1
      rw [hk]
      exact ih h.2

theorem lookup_getD_self {l : List (String × String)} {r : String}
    (h : r ∉ l.map Prod.fst) : (l.lookup r).getD r = r := by
  rw [lookup_none h]
  rfl

theorem ratio_le_q (c m k d : Nat) (hm : 0 < m) (hd : 0 < d) :
    ((c : ℚ) / m ≤ k / d) ↔ d * c ≤ k * m := by
  rw [div_le_div_iff₀ (by exact_mod_cast hm) (by exact_mod_cast hd)]
  constructor
  · intro h
    have h2 : ((d * c : Nat) : ℚ) ≤ ((k * m : Nat) : ℚ) := by push_cast; linarith
    exact_mod_cast h2
  · intro h
    have h2 : ((d * c : Nat) : ℚ) ≤ ((k * m : Nat) : ℚ) := by exact_mod_cast h
    push_cast at h2
    linarith

/-! ### Claims -/

/-- C5: `normalize_project_name` is total and defaults to identity: every key
of `PROJECT_MAPPING` maps to its listed label, every other repository name is
returned unchanged; in particular `"topaz-stb-test-system"` maps to
`"topaz"` and `"unknown-repo"` to itself. -/
theorem normalize_project_name_spec :
    (∀ k v, (k, v) ∈ PROJECT_MAPPING → normalize_project_name k = v) ∧
    (∀ r, r ∉ PROJECT_MAPPING.map Prod.fst → normalize_project_name r = r) ∧
    normalize_project_name "topaz-stb-test-system" = "topaz" ∧
    normalize_project_name "unknown-repo" = "unknown-repo" := by
  refine ⟨?_, ?_, by decide, by decide⟩
  · intro k v h
    fin_cases h <;> decide
  · intro r h
    exact lookup_getD_self h

/-- Witness for C5 at the two concrete repository names from the spec. -/
theorem normalize_project_name_spec_witness :
    normalize_project_name "topaz-stb-test-system" = "topaz" ∧
    normalize_project_name "unknown-repo" = "unknown-repo" :=
  ⟨normalize_project_name_spec.1 "topaz-stb-test-system" "topaz" (by decide),
   normalize_project_name_spec.2.1 "unknown-repo" (by decide)⟩

/-- C2: `calculate_level` returns 0 exactly on count 0, classifies a
positive count by the ratio `count / max_count` with thresholds 1/4, 1/2,
3/4 inclusive on the upper bound, is monotone in the count for a fixed
`max_count`, and for `max_count = 100` maps counts 0, 25, 26, 50, 51, 75,
76, 100 to levels 0, 1, 2, 2, 3, 3, 4, 4. -/
theorem calculate_level_spec :
    (∀ m : Nat, 1 ≤ m → calculate_level 0 m = 0) ∧
    (∀ c m : Nat, 1 ≤ m → 1 ≤ c →
      (((c : ℚ) / m ≤ 1 / 4) → calculate_level c m = 1) ∧
      (¬ ((c : ℚ) / m ≤ 1 / 4) → ((c : ℚ) / m ≤ 1 / 2) →
        calculate_level c m = 2) ∧
      (¬ ((c : ℚ) / m ≤ 1 / 2) → ((c : ℚ) / m ≤ 3 / 4) →
        calculate_level c m = 3) ∧
      (¬ ((c : ℚ) / m ≤ 3 / 4) → calculate_level c m = 4)) ∧
    (∀ c₁ c₂ m : Nat, 1 ≤ m → c₁ ≤ c₂ →
      calculate_level c₁ m ≤ calculate_level c₂ m) ∧
    ([0, 25, 26, 50, 51, 75, 76, 100].map (fun c => calculate_level c 100) =
      [0, 1, 2, 2, 3, 3, 4, 4]) := by
  refine ⟨?_, ?_, ?_, by decide⟩
  · intro m _
    simp [calculate_level]
  · intro c m hm hc
    have h4 := ratio_le_q c m 1 4 (by omega) (by omega)
    have h2 := ratio_le_q c m 1 2 (by omega) (by omega)
    have h34 := ratio_le_q c m 3 4 (by omega) (by omega)
    push_cast at h4 h2 h34
    refine ⟨?_, ?_, ?_, ?_⟩
    · intro h
      have := h4.mp h
      simp only [calculate_level]
      split_ifs <;> omega
    · intro hn h
      have ha := h2.mp h
      have hb : ¬ (4 * c ≤ 1 * m) := fun hx => hn (h4.mpr hx)
      simp only [calculate_level]
      split_ifs <;> omega
    · intro hn h
      have ha := h34.mp h
      have hb : ¬ (2 * c ≤ 1 * m) := fun hx => hn (h2.mpr hx)
      simp only [calculate_level]
      split_ifs <;> omega
    · intro hn
      have hb : ¬ (4 * c ≤ 3 * m) := fun hx => hn (h34.mpr hx)
      simp only [calculate_level]
      split_ifs <;> omega
  · intro c₁ c₂ m _ h
    simp only [calculate_level]
    split_ifs <;> omega

/-- Witness for C2 at count 26, max_count 100 (level 2). -/
theorem calculate_level_spec_witness : calculate_level 26 100 = 2 :=
  (calculate_level_spec.2.1 26 100 (by norm_num) (by norm_num)).2.1
    (by push_cast; norm_num) (by push_cast; norm_num)

/-- C9: in the legacy author-matching predicate, the exact-equality
disjunct is redundant: the predicate equals the two case-insensitive
containment disjuncts alone, for all usernames, author names and emails. -/
theorem author_match_redundant :
    ∀ username author_name author_email : String,
      author_match username author_name author_email =
        author_match_reduced username author_name author_email := by
  intro u n e
  unfold author_match author_match_reduced
  cases h : n == u with
  | false => simp
  | true =>
      have hn : n = u := eq_of_beq h
      subst hn
      simp [lowerContains, List.infix_refl]

/-- Characterisation of the `generate_neatocal_data` fold from an arbitrary
accumulator: the `param` scalars are untouched, the `color_cell` list grows
by one pair per entry, and the date-label dict is the fold of the dict
assignments. -/
theorem generate_foldl (hd : List HeatmapEntry) (acc : NeatocalData) :
    hd.foldl
      (fun acc e =>
        { param := { acc.param with
            color_cell := acc.param.color_cell ++
              [(e.date, projectColor e.project)] },
          dateLabels := dictInsertNat acc.dateLabels e.date e.project }) acc =
    { param := { acc.param with
        color_cell := acc.param.color_cell ++
          hd.map (fun e => (e.date, projectColor e.project)) },
      dateLabels :=
        hd.foldl (fun d e => dictInsertNat d e.date e.project) acc.dateLabels } := by
  induction hd generalizing acc with
  | nil => simp
  | cons e t ih =>
      rw [List.foldl_cons, ih]
      simp

/-- Folding dict assignments whose keys are fresh and pairwise distinct just
appends the corresponding pairs in order. -/
theorem dictInsert_foldl_fresh :
    ∀ (hd : List HeatmapEntry) (d : List (Nat × String)),
      (hd.map HeatmapEntry.date).Nodup →
      (∀ e ∈ hd, ∀ p ∈ d, p.1 ≠ e.date) →
      hd.foldl (fun acc e => dictInsertNat acc e.date e.project) d =
        d ++ hd.map (fun e => (e.date, e.project)) := by
  intro hd
  induction hd with
  | nil => intro d _ _; simp
  | cons e t ih =>
      intro d hnd hfresh
      have hins : dictInsertNat d e.date e.project = d ++ [(e.date, e.project)] := by
        unfold dictInsertNat
        rw [if_neg]
        simp only [List.any_eq_true, beq_iff_eq, not_exists, not_and]
        intro p hp
        exact hfresh e (List.mem_cons_self e t) p hp
      rw [List.foldl_cons, hins,
        ih (d ++ [(e.date, e.project)]) (List.Nodup.of_cons (by simpa using hnd)) ?_]
      · simp
      · intro e₂ he₂ p hp
        rcases List.mem_append.mp hp with hpd | hpe
        · exact hfresh e₂ (List.mem_cons_of_mem e he₂) p hpd
        · have hp1 : p = (e.date, e.project) := by simpa using hpe
          subst hp1
          simp only [List.map_cons, List.nodup_cons, List.mem_map] at hnd
          intro hcontra
          exact hnd.1 ⟨e₂, he₂, hcontra.symm⟩

/-- C4: `generate_neatocal_data` produces the fixed `param` block (the given
year, layout "aligned-weekdays", cell height "1.5em", start day 0, highlight
color "#fef9c3"), one `color_cell` pair per entry in list order whose color
is the `PROJECT_COLORS` value for listed labels and the default gray
"#6b7280" otherwise, plus one top-level date key per entry holding the
entry's representative project label. -/
theorem generate_neatocal_data_spec :
    ∀ (heatmap_data : List HeatmapEntry) (year : Nat),
      (generate_neatocal_data heatmap_data year).param.year = year ∧
      (generate_neatocal_data heatmap_data year).param.layout =
        "aligned-weekdays" ∧
      (generate_neatocal_data heatmap_data year).param.cell_height = "1.5em" ∧
      (generate_neatocal_data heatmap_data year).param.start_day = 0 ∧
      (generate_neatocal_data heatmap_data year).param.highlight_color =
        "#fef9c3" ∧
      (generate_neatocal_data heatmap_data year).param.color_cell =
        heatmap_data.map (fun e => (e.date, projectColor e.project)) ∧
      (∀ p c, (p, c) ∈ PROJECT_COLORS → projectColor p = c) ∧
      (∀ p, p ∉ PROJECT_COLORS.map Prod.fst → projectColor p = "#6b7280") ∧
      ((heatmap_data.map HeatmapEntry.date).Nodup →
        (generate_neatocal_data heatmap_data year).dateLabels =
          heatmap_data.map (fun e => (e.date, e.project))) := by
  intro hd year
  unfold generate_neatocal_data
  rw [generate_foldl]
  refine ⟨rfl, rfl, rfl, rfl, rfl, by simp, ?_, ?_, ?_⟩
  · intro p c h
    fin_cases h <;> decide
  · intro p h
    unfold projectColor
    rw [lookup_none h]
    rfl
  · intro hnd
    rw [dictInsert_foldl_fresh hd [] hnd (by simp)]
    simp

/-- Witness for C4 at a concrete one-entry heatmap list. -/
theorem generate_neatocal_data_spec_witness :
    (generate_neatocal_data [⟨3, 2, "topaz", 4⟩] 2025).dateLabels =
      [(3, "topaz")] ∧ projectColor "topaz" = "#ef4444" :=
  ⟨(generate_neatocal_data_spec [⟨3, 2, "topaz", 4⟩] 2025).2.2.2.2.2.2.2.2
      (by decide),
   (generate_neatocal_data_spec [] 2025).2.2.2.2.2.2.1 "topaz" "#ef4444"
      (by decide)⟩

/-- The fold of Python's `max(..., key=...)` splits its input around the
returned element: everything scanned before it is strictly smaller,
everything after it is at most as large. -/
theorem foldl_max_split :
    ∀ (rest : List (String × Nat)) (best : String × Nat)
      (pre₁ pre₂ : List (String × Nat)),
      (∀ q ∈ pre₁, q.2 < best.2) → (∀ q ∈ pre₂, q.2 ≤ best.2) →
      ∃ s₁ s₂,
        pre₁ ++ best :: pre₂ ++ rest =
          s₁ ++ (rest.foldl (fun b y => if b.2 < y.2 then y else b) best) :: s₂ ∧
        (∀ q ∈ s₁,
          q.2 < (rest.foldl (fun b y => if b.2 < y.2 then y else b) best).2) ∧
        (∀ q ∈ s₂,
          q.2 ≤ (rest.foldl (fun b y => if b.2 < y.2 then y else b) best).2) := by
  intro rest
  induction rest with
  | nil =>
      intro best pre₁ pre₂ h₁ h₂
      exact ⟨pre₁, pre₂, by simp, h₁, h₂⟩
  | cons y ys ih =>
      intro best pre₁ pre₂ h₁ h₂
      rw [List.foldl_cons]
      by_cases h : best.2 < y.2
      · rw [if_pos h]
        have hside : ∀ q ∈ pre₁ ++ best :: pre₂, q.2 < y.2 := by
          intro q hq
          rcases List.mem_append.mp hq with hq₁ | hq₂
          · exact lt_trans (h₁ q hq₁) h
          · rcases List.mem_cons.mp hq₂ with hqb | hqp
            · rw [hqb]; exact h
            · exact lt_of_le_of_lt (h₂ q hqp) h
        obtain ⟨s₁, s₂, heq, hlt, hle⟩ :=
          ih y (pre₁ ++ best :: pre₂) [] hside (by simp)
        refine ⟨s₁, s₂, ?_, hlt, hle⟩
        simpa using heq
      · rw [if_neg h]
        have hside : ∀ q ∈ pre₂ ++ [y], q.2 ≤ best.2 := by
          intro q hq
          rcases List.mem_append.mp hq with hq₁ | hq₂
          · exact h₂ q hq₁
          · have hqy : q = y := by simpa using hq₂
            rw [hqy]; omega
        obtain ⟨s₁, s₂, heq, hlt, hle⟩ := ih best pre₁ (pre₂ ++ [y]) h₁ hside
        refine ⟨s₁, s₂, ?_, hlt, hle⟩
        simpa using heq

/-- Python `max(project_counts, key=project_counts.get)` returns the
first-encountered key with the highest count. -/
theorem maxByCount_firstMax {pc : List (String × Nat)} {p : String}
    (h : maxByCount pc = some p) : firstMax pc p := by
  match pc, h with
  | x :: rest, h =>
      simp only [maxByCount, Option.some.injEq] at h
      obtain ⟨s₁, s₂, heq, hlt, hle⟩ := foldl_max_split rest x [] []
        (by simp) (by simp)
      refine ⟨(rest.foldl (fun b y => if b.2 < y.2 then y else b) x).2, s₁, s₂,
        ?_, hlt, hle⟩
      rw [← h]
      simpa using heq

/-- Incrementing one key of the counter dict raises the total by one. -/
theorem bumpCount_snd_sum (counts : List (String × Nat)) (k : String) :
    ((bumpCount counts k).map Prod.snd).sum = (counts.map Prod.snd).sum + 1 := by
  induction counts with
  | nil => simp [bumpCount]
  | cons q t ih =>
      obtain ⟨k₀, n⟩ := q
      simp only [bumpCount]
      split
      · simp only [List.map_cons, List.sum_cons]
        omega
      · simp only [List.map_cons, List.sum_cons, ih]
        omega

/-- The total of the per-label counts equals the number of commit records. -/
theorem projectCounts_sum (commits : List CommitRecord) :
    ((projectCounts commits).map Prod.snd).sum = commits.length := by
  suffices h : ∀ (l : List CommitRecord) (acc : List (String × Nat)),
      ((l.foldl (fun acc c => bumpCount acc (normalize_project_name c.repo))
          acc).map Prod.snd).sum = (acc.map Prod.snd).sum + l.length by
    simpa using h commits []
  intro l
  induction l with
  | nil => simp
  | cons c t ih =>
      intro acc
      rw [List.foldl_cons, ih, bumpCount_snd_sum]
      simp only [List.length_cons]
      omega

theorem bumpCount_ne_nil (counts : List (String × Nat)) (k : String) :
    bumpCount counts k ≠ [] := by
  cases counts with
  | nil => simp [bumpCount]
  | cons q t =>
      obtain ⟨k₀, n⟩ := q
      simp only [bumpCount]
      split <;> simp

theorem projectCounts_ne_nil {commits : List CommitRecord} (h : commits ≠ []) :
    projectCounts commits ≠ [] := by
  unfold projectCounts
  cases commits with
  | nil => exact absurd rfl h
  | cons c t =>
      rw [List.foldl_cons]
      have aux : ∀ (l : List CommitRecord) (acc : List (String × Nat)),
          acc ≠ [] →
          l.foldl (fun acc c => bumpCount acc (normalize_project_name c.repo))
            acc ≠ [] := by
        intro l
        induction l with
        | nil => intro acc ha; simpa using ha
        | cons c₂ t₂ ih =>
            intro acc _
            rw [List.foldl_cons]
            exact ih _ (bumpCount_ne_nil acc (normalize_project_name c₂.repo))
      exact aux t _ (bumpCount_ne_nil [] (normalize_project_name c.repo))

theorem convert_to_heatmap_cons (a : Nat × List CommitRecord)
    (l : List (Nat × List CommitRecord)) :
    convert_to_heatmap (a :: l) =
      (List.insertionSort dateLe (dateSummaryOf (a :: l))).map (fun q =>
        { date := q.1, count := q.2.count, project := q.2.project,
          level := calculate_level q.2.count
            (maxCountOf (dateSummaryOf (a :: l))) }) := rfl

theorem dateSummaryOf_fst (daily : List (Nat × List CommitRecord)) :
    (dateSummaryOf daily).map Prod.fst = daily.map Prod.fst := by
  unfold dateSummaryOf
  rw [List.map_map]
  rfl

theorem convert_to_heatmap_dates {daily : List (Nat × List CommitRecord)}
    (h : daily ≠ []) :
    (convert_to_heatmap daily).map HeatmapEntry.date =
      (List.insertionSort dateLe (dateSummaryOf daily)).map Prod.fst := by
  cases daily with
  | nil => exact absurd rfl h
  | cons a l =>
      rw [convert_to_heatmap_cons, List.map_map]
      rfl

/-- The dates of the emitted heatmap entries are a permutation of the
bucket's date keys. -/
theorem convert_dates_perm (daily : List (Nat × List CommitRecord)) :
    ((convert_to_heatmap daily).map HeatmapEntry.date).Perm
      (daily.map Prod.fst) := by
  cases daily with
  | nil => simp [convert_to_heatmap]
  | cons a l =>
      rw [convert_to_heatmap_dates (List.cons_ne_nil a l)]
      exact ((List.perm_insertionSort dateLe _).map Prod.fst).trans
        (List.Perm.of_eq (dateSummaryOf_fst (a :: l)))

theorem mem_convert_to_heatmap {daily : List (Nat × List CommitRecord)}
    (hdne : daily ≠ []) {q : Nat × DaySummary}
    (hq : q ∈ List.insertionSort dateLe (dateSummaryOf daily)) :
    { date := q.1, count := q.2.count, project := q.2.project,
      level := calculate_level q.2.count (maxCountOf (dateSummaryOf daily)) } ∈
      convert_to_heatmap daily := by
  cases daily with
  | nil => exact absurd rfl hdne
  | cons a l =>
      rw [convert_to_heatmap_cons]
      exact List.mem_map_of_mem _ hq

theorem nodup_dates_unique {l : List HeatmapEntry}
    (hnd : (l.map HeatmapEntry.date).Nodup) {e₁ e₂ : HeatmapEntry}
    (h₁ : e₁ ∈ l) (h₂ : e₂ ∈ l) (h : e₁.date = e₂.date) : e₁ = e₂ :=
  List.inj_on_of_nodup_map hnd h₁ h₂ h

/-- C1: for every date of a person's bucket, `convert_to_heatmap` emits
exactly one entry for that date; its count is the total number of that
date's records (the sum of all labels' counts) and its representative
project is the first-encountered label with the highest per-label count.
In particular a day with records A,A,A,B,B,B,B,B,A yields project "B" and
count 9. -/
theorem convert_to_heatmap_day_spec :
    (∀ (daily : List (Nat × List CommitRecord)) (d : Nat)
        (commits : List CommitRecord),
      (daily.map Prod.fst).Nodup → (d, commits) ∈ daily → commits ≠ [] →
      ∃ e ∈ convert_to_heatmap daily,
        e.date = d ∧ e.count = commits.length ∧
        firstMax (projectCounts commits) e.project ∧
        ∀ e₂ ∈ convert_to_heatmap daily, e₂.date = d → e₂ = e) ∧
    convert_to_heatmap
        [(0, [recA, recA, recA, recB, recB, recB, recB, recB, recA])] =
      [{ date := 0, count := 9, project := "B", level := 4 }] := by
  constructor
  · intro daily d commits hnd hmem hne
    have hdne : daily ≠ [] := by
      intro hh
      rw [hh] at hmem
      simp at hmem
    have hnodup_out : ((convert_to_heatmap daily).map HeatmapEntry.date).Nodup :=
      (convert_dates_perm daily).nodup_iff.mpr hnd
    have hqmem : (d, summarizeDay commits) ∈
        List.insertionSort dateLe (dateSummaryOf daily) := by
      rw [(List.perm_insertionSort dateLe _).mem_iff]
      exact List.mem_map.mpr ⟨(d, commits), hmem, rfl⟩
    refine ⟨_, mem_convert_to_heatmap hdne hqmem, rfl, ?_, ?_, ?_⟩
    · show (summarizeDay commits).count = commits.length
      simp only [summarizeDay]
      exact projectCounts_sum commits
    · show firstMax (projectCounts commits) (summarizeDay commits).project
      have hpcne := projectCounts_ne_nil hne
      cases hpc : projectCounts commits with
      | nil => exact absurd hpc hpcne
      | cons x rest =>
          simp only [summarizeDay, hpc, maxByCount, Option.getD_some]
          exact @maxByCount_firstMax (x :: rest) _ rfl
    · intro e₂ hm₂ hd₂
      exact nodup_dates_unique hnodup_out hm₂ (mem_convert_to_heatmap hdne hqmem)
        hd₂
  · decide

/-- Witness for C1 at a concrete one-day bucket with records B, A. -/
theorem convert_to_heatmap_day_spec_witness :
    ∃ e ∈ convert_to_heatmap [(0, [recB, recA])],
      e.date = 0 ∧ e.count = ([recB, recA] : List CommitRecord).length ∧
      firstMax (projectCounts [recB, recA]) e.project ∧
      ∀ e₂ ∈ convert_to_heatmap [(0, [recB, recA])], e₂.date = 0 → e₂ = e :=
  convert_to_heatmap_day_spec.1 [(0, [recB, recA])] 0 [recB, recA]
    (by decide) (by decide) (by decide)

/-- C3: an empty bucket yields an empty heatmap list; a bucket with distinct
date keys and non-empty per-date record lists yields a list sorted ascending
by date whose dates are exactly the bucket's keys (one entry per key) with
every count positive; and in `main`, a person whose merged bucket is empty
contributes no output files while the remaining people are processed
unchanged. -/
theorem convert_to_heatmap_shape_spec :
    convert_to_heatmap [] = [] ∧
    (∀ daily : List (Nat × List CommitRecord),
      (daily.map Prod.fst).Nodup → (∀ p ∈ daily, p.2 ≠ []) →
      List.Sorted (· ≤ ·) ((convert_to_heatmap daily).map HeatmapEntry.date) ∧
      ((convert_to_heatmap daily).map HeatmapEntry.date).Perm
        (daily.map Prod.fst) ∧
      ∀ e ∈ convert_to_heatmap daily, 0 < e.count) ∧
    (∀ (before after : List (String × List (Nat × List CommitRecord)))
        (name : String),
      main_output_files (before ++ (name, []) :: after) =
        main_output_files (before ++ after)) := by
  refine ⟨rfl, ?_, ?_⟩
  · intro daily hnd hvals
    refine ⟨?_, convert_dates_perm daily, ?_⟩
    · cases daily with
      | nil => simp [convert_to_heatmap]
      | cons a l =>
          rw [convert_to_heatmap_dates (List.cons_ne_nil a l)]
          exact (List.sorted_insertionSort dateLe (dateSummaryOf (a :: l))).map
            Prod.fst (fun p q hpq => hpq)
    · intro e he
      cases daily with
      | nil => simp [convert_to_heatmap] at he
      | cons a l =>
          rw [convert_to_heatmap_cons] at he
          obtain ⟨q, hq, rfl⟩ := List.mem_map.mp he
          have hqS : q ∈ dateSummaryOf (a :: l) :=
            ((List.perm_insertionSort dateLe _).mem_iff).mp hq
          obtain ⟨p, hp, hpq⟩ := List.mem_map.mp hqS
          show 0 < q.2.count
          have hcount : q.2.count = p.2.length := by
            rw [← hpq]
            simp only [summarizeDay]
            exact projectCounts_sum p.2
          rw [hcount]
          exact List.length_pos.mpr (hvals p hp)
  · intro before after name
    unfold main_output_files
    simp [List.foldl_append, mainStep]

/-- Witness for C3 at a concrete two-day bucket. -/
theorem convert_to_heatmap_shape_spec_witness :
    ((convert_to_heatmap [(5, [recA]), (3, [recB])]).map HeatmapEntry.date).Perm
      ([(5, [recA]), (3, [recB])].map Prod.fst) :=
  (convert_to_heatmap_shape_spec.2.1 [(5, [recA]), (3, [recB])] (by decide)
    (by decide)).2.1

/-- C8: in the GitLab collector's primary path, when the group and project
listing succeed but both the exact username lookup and the fuzzy search
return no users, the collector returns an empty date-keyed result through
the primary path — no exception escapes and the legacy fallback is not
invoked (the events listing is never even consulted). -/
theorem collect_gitlab_no_user_spec :
    ∀ (env : GitlabEnv) (start_date end_date : Nat),
      env.group = Except.ok () → (∃ ps, env.projects = Except.ok ps) →
      env.usersExact = Except.ok [] → env.usersSearch = Except.ok [] →
      collect_gitlab_commits env start_date end_date =
        GitlabOutcome.primary [] := by
  intro env s e hg hps hue hus
  obtain ⟨ps, hp⟩ := hps
  unfold collect_gitlab_commits gitlab_primary
  rw [hg, hp, hue, hus]
  rfl

/-- Witness for C8: a concrete environment with no matching user and an
events endpoint that would raise if consulted. -/
theorem collect_gitlab_no_user_spec_witness :
    collect_gitlab_commits
      { group := Except.ok (), projects := Except.ok [],
        usersExact := Except.ok [], usersSearch := Except.ok [],
        events := Except.error "events endpoint unavailable" } 0 10 =
      GitlabOutcome.primary [] :=
  collect_gitlab_no_user_spec _ 0 10 rfl ⟨[], rfl⟩ rfl rfl

theorem mem_replaceDoc {css js : String} {x : HtmlTok} :
    ∀ {doc : List HtmlTok}, x ∈ replaceDoc css js doc →
      ∃ t ∈ doc, x ∈ replaceTok css js t := by
  intro doc
  induction doc with
  | nil => intro h; simp [replaceDoc] at h
  | cons t rest ih =>
      intro h
      rcases List.mem_append.mp h with h₁ | h₂
      · exact ⟨t, List.mem_cons_self t rest, h₁⟩
      · obtain ⟨u, hu, hx⟩ := ih h₂
        exact ⟨u, List.mem_cons_of_mem t hu, hx⟩

/-- No output of a single-token substitution is one of the three bundle
tags. -/
theorem replaceTok_no_tags {css js : String} {t x : HtmlTok}
    (h : x ∈ replaceTok css js t) :
    x ≠ HtmlTok.fontLink ∧ x ≠ HtmlTok.cssLink ∧ x ≠ HtmlTok.jsScript := by
  cases t <;> simp [replaceTok] at h <;> simp [h]

theorem replaceTok_id {css js : String} {t : HtmlTok}
    (h1 : t ≠ HtmlTok.fontLink) (h2 : t ≠ HtmlTok.cssLink)
    (h3 : t ≠ HtmlTok.jsScript) : replaceTok css js t = [t] := by
  cases t <;> simp_all [replaceTok]

theorem replaceDoc_id {css js : String} {doc : List HtmlTok}
    (h : ∀ t ∈ doc, replaceTok css js t = [t]) : replaceDoc css js doc = doc := by
  induction doc with
  | nil => rfl
  | cons t rest ih =>
      show replaceTok css js t ++ replaceDoc css js rest = t :: rest
      rw [h t (List.mem_cons_self t rest), ih (fun u hu => h u (List.mem_cons_of_mem t hu))]
      rfl

theorem replaceTok_anyFonts (css js : String) (t : HtmlTok) :
    (replaceTok css js t).any hasFontsRef = hasFontsRef t := by
  cases t <;> rfl

/-- The three substitutions neither add nor remove a
`fonts.googleapis.com` reference. -/
theorem replaceDoc_anyFonts (css js : String) (doc : List HtmlTok) :
    (replaceDoc css js doc).any hasFontsRef = doc.any hasFontsRef := by
  induction doc with
  | nil => rfl
  | cons t rest ih =>
      show ((replaceTok css js t ++ replaceDoc css js rest).any hasFontsRef) = _
      rw [List.any_append, ih, replaceTok_anyFonts, List.any_cons]

theorem replaceTok_count (css js : String) (t : HtmlTok) :
    (replaceTok css js t).count HtmlTok.googleFonts =
      [t].count HtmlTok.googleFonts := by
  cases t <;> rfl

theorem replaceDoc_count (css js : String) (doc : List HtmlTok) :
    (replaceDoc css js doc).count HtmlTok.googleFonts =
      doc.count HtmlTok.googleFonts := by
  induction doc with
  | nil => rfl
  | cons t rest ih =>
      show ((replaceTok css js t ++ replaceDoc css js rest).count _) = _
      rw [List.count_append, ih, replaceTok_count]
      simp [List.count_cons]
      omega

theorem insertAfterHead_of_not_mem {b : HtmlTok} {l : List HtmlTok}
    (h : HtmlTok.headOpen ∉ l) : insertAfterHead b l = l := by
  induction l with
  | nil => rfl
  | cons t rest ih =>
      unfold insertAfterHead
      rw [if_neg (fun ht => h (by rw [← ht]; exact List.mem_cons_self t rest))]
      rw [ih (fun hr => h (List.mem_cons_of_mem t hr))]

theorem mem_insertAfterHead {b x : HtmlTok} :
    ∀ {l : List HtmlTok}, x ∈ insertAfterHead b l → x = b ∨ x ∈ l := by
  intro l
  induction l with
  | nil => intro h; simp [insertAfterHead] at h
  | cons t rest ih =>
      intro h
      unfold insertAfterHead at h
      split at h
      · rcases List.mem_cons.mp h with h₁ | h₂
        · exact Or.inr (by rw [h₁]; exact List.mem_cons_self t rest)
        · rcases List.mem_cons.mp h₂ with h₃ | h₄
          · exact Or.inl h₃
          · exact Or.inr (List.mem_cons_of_mem t h₄)
      · rcases List.mem_cons.mp h with h₁ | h₂
        · exact Or.inr (by rw [h₁]; exact List.mem_cons_self t rest)
        · rcases ih h₂ with h₃ | h₄
          · exact Or.inl h₃
          · exact Or.inr (List.mem_cons_of_mem t h₄)

theorem insertAfterHead_anyFonts {l : List HtmlTok}
    (h : HtmlTok.headOpen ∈ l) :
    (insertAfterHead HtmlTok.googleFonts l).any hasFontsRef = true := by
  induction l with
  | nil => simp at h
  | cons t rest ih =>
      unfold insertAfterHead
      split
      · simp [hasFontsRef]
      · rename_i ht
        have hr : HtmlTok.headOpen ∈ rest := by
          rcases List.mem_cons.mp h with h₁ | h₂
          · exact absurd h₁.symm ht
          · exact h₂
        simp [ih hr]

/-- C7: the converter's rewrite is idempotent: its output contains no bundle
font-stylesheet link, no bundle main-stylesheet link and no bundle script
tag; when a `fonts.googleapis.com` reference is already present no second
Google-Fonts block is inserted (the count of inserted blocks is unchanged);
and converting the output again reproduces it exactly. -/
theorem convert_to_standalone_idempotent :
    ∀ (css js : String) (doc : List HtmlTok),
      HtmlTok.fontLink ∉ convert_to_standalone css js doc ∧
      HtmlTok.cssLink ∉ convert_to_standalone css js doc ∧
      HtmlTok.jsScript ∉ convert_to_standalone css js doc ∧
      (doc.any hasFontsRef = true →
        (convert_to_standalone css js doc).count HtmlTok.googleFonts =
          doc.count HtmlTok.googleFonts) ∧
      convert_to_standalone css js (convert_to_standalone css js doc) =
        convert_to_standalone css js doc := by
  intro css js doc
  have hD_no : ∀ x ∈ replaceDoc css js doc,
      x ≠ HtmlTok.fontLink ∧ x ≠ HtmlTok.cssLink ∧ x ≠ HtmlTok.jsScript := by
    intro x hx
    obtain ⟨t, _, hxt⟩ := mem_replaceDoc hx
    exact replaceTok_no_tags hxt
  have hDid : replaceDoc css js (replaceDoc css js doc) = replaceDoc css js doc :=
    replaceDoc_id (fun t ht =>
      replaceTok_id (hD_no t ht).1 (hD_no t ht).2.1 (hD_no t ht).2.2)
  cases hf : (replaceDoc css js doc).any hasFontsRef with
  | true =>
      have hout : convert_to_standalone css js doc = replaceDoc css js doc := by
        simp [convert_to_standalone, hf]
      refine ⟨?_, ?_, ?_, ?_, ?_⟩
      · rw [hout]; intro hx; exact (hD_no _ hx).1 rfl
      · rw [hout]; intro hx; exact (hD_no _ hx).2.1 rfl
      · rw [hout]; intro hx; exact (hD_no _ hx).2.2 rfl
      · intro _; rw [hout, replaceDoc_count]
      · rw [hout]
        simp [convert_to_standalone, hDid, hf]
  | false =>
      have hout : convert_to_standalone css js doc =
          insertAfterHead HtmlTok.googleFonts (replaceDoc css js doc) := by
        simp [convert_to_standalone, hf]
      have hO_no : ∀ x ∈ insertAfterHead HtmlTok.googleFonts (replaceDoc css js doc),
          x ≠ HtmlTok.fontLink ∧ x ≠ HtmlTok.cssLink ∧ x ≠ HtmlTok.jsScript := by
        intro x hx
        rcases mem_insertAfterHead hx with h₁ | h₂
        · subst h₁
          exact ⟨by decide, by decide, by decide⟩
        · exact hD_no x h₂
      refine ⟨?_, ?_, ?_, ?_, ?_⟩
      · rw [hout]; intro hx; exact (hO_no _ hx).1 rfl
      · rw [hout]; intro hx; exact (hO_no _ hx).2.1 rfl
      · rw [hout]; intro hx; exact (hO_no _ hx).2.2 rfl
      · intro hdoc
        rw [replaceDoc_anyFonts, hdoc] at hf
        exact absurd hf (by simp)
      · rw [hout]
        have hOid : replaceDoc css js
            (insertAfterHead HtmlTok.googleFonts (replaceDoc css js doc)) =
            insertAfterHead HtmlTok.googleFonts (replaceDoc css js doc) :=
          replaceDoc_id (fun t ht =>
            replaceTok_id (hO_no t ht).1 (hO_no t ht).2.1 (hO_no t ht).2.2)
        by_cases hh : HtmlTok.headOpen ∈ replaceDoc css js doc
        · have hT := insertAfterHead_anyFonts hh
          simp [convert_to_standalone, hOid, hT]
        · have hOD : insertAfterHead HtmlTok.googleFonts (replaceDoc css js doc)
              = replaceDoc css js doc := insertAfterHead_of_not_mem hh
          rw [hOD]
          simp only [convert_to_standalone, hDid, hf]
          exact hOD

/-- Witness for C7: a document that already references Google Fonts keeps
its (zero) inserted-block count. -/
theorem convert_to_standalone_idempotent_witness :
    (convert_to_standalone "c" "j"
        [HtmlTok.headOpen, HtmlTok.fontsRef]).count HtmlTok.googleFonts =
      ([HtmlTok.headOpen, HtmlTok.fontsRef] : List HtmlTok).count
        HtmlTok.googleFonts :=
  (convert_to_standalone_idempotent "c" "j"
    [HtmlTok.headOpen, HtmlTok.fontsRef]).2.2.2.1 (by decide)

/-- Python `str.replace` leaves a string without any occurrence of the pattern
unchanged. -/
theorem replaceAllAux_no_occ {pat : List Char} :
    ∀ (fuel : Nat) (s : List Char), s.length ≤ fuel → ¬ (pat <:+: s) →
      replaceAllAux pat fuel s = s := by
  intro fuel
  induction fuel with
  | zero => intro s _ _; rfl
  | succ f ih =>
      intro s hs hocc
      cases s with
      | nil => rfl
      | cons c rest =>
          simp only [replaceAllAux]
          rw [if_neg]
          · rw [ih rest (by simp only [List.length_cons] at hs; omega)
              (fun h => hocc (List.infix_cons h))]
          · rintro ⟨_, hpre⟩
            exact hocc ( List.isPrefixOf_iff_prefix.mp hpre).isInfix

/-- Python `str.replace` on a string that starts with the pattern and has no
further occurrence just strips the leading occurrence. -/
theorem replaceAll_prefix_no_occ {pat t : List Char} (hp : pat ≠ [])
    (hocc : ¬ (pat <:+: t)) : replaceAll pat (pat ++ t) = t := by
  unfold replaceAll
  cases pat with
  | nil => exact absurd rfl hp
  | cons p ps =>
      rw [List.cons_append, List.length_cons]
      simp only [replaceAllAux]
      rw [if_pos ?_]
      · have hdrop : (p :: (ps ++ t)).drop (p :: ps).length = t := by
          rw [← List.cons_append]
          exact List.drop_left (p :: ps) t
        rw [hdrop]
        exact replaceAllAux_no_occ _ _ (by simp) hocc
      · refine ⟨by simp, ?_⟩
        rw [← List.cons_append]
        exact List.isPrefixOf_iff_prefix.mpr (List.prefix_append _ _)

/-- Python `Path.stem` on a generated calendar filename strips exactly the
`.html` extension. -/
theorem stemList_output (name : List Char) :
    stemList (calPrefix ++ name ++ htmlExt) = calPrefix ++ name := by
  have hcl : calPrefix.length = 18 := by decide
  have hrevExt : htmlExt.reverse = ['l', 'm', 't', 'h', '.'] := by decide
  have hrev : (calPrefix ++ name ++ htmlExt).reverse =
      'l' :: 'm' :: 't' :: 'h' :: '.' :: (name.reverse ++ calPrefix.reverse) := by
    rw [List.reverse_append, List.reverse_append, hrevExt]
    rfl
  have hel : htmlExt.length = 5 := by decide
  have hlen : (calPrefix ++ name ++ htmlExt).length = name.length + 23 := by
    simp [List.length_append, hcl, hel]
    omega
  have hidx : ((calPrefix ++ name ++ htmlExt).reverse).findIdx
      (fun c => c = '.') = 4 := by
    rw [hrev]
    simp +decide [List.findIdx_cons]
  simp only [stemList]
  rw [hidx, List.length_reverse, hlen]
  rw [if_pos (by omega), if_pos (by omega)]
  have hj : name.length + 23 - 1 - 4 = (calPrefix ++ name).length := by
    simp [List.length_append, hcl]
    omega
  rw [hj]
  exact List.take_left _ _

/-- A generated calendar filename matches the merger's glob pattern. -/
theorem matchesCalendarPattern_output (name : List Char) :
    matchesCalendarPattern (output_filename name) = true := by
  unfold matchesCalendarPattern output_filename
  simp only [Bool.and_eq_true, List.isPrefixOf_iff_prefix,
    List.isSuffixOf_iff_suffix, decide_eq_true_eq]
  refine ⟨⟨?_, ?_⟩, ?_⟩
  · rw [List.append_assoc]
    exact List.prefix_append _ _
  · exact List.suffix_append _ _
  · simp [List.length_append]

/-- Sanity check for the glob embedding: a name matches the pattern
exactly when it decomposes as the literal prefix, an arbitrary middle,
and the literal `.html` extension — the fnmatch meaning of
`commit_calendar - *.html`. -/
theorem matchesCalendarPattern_iff (f : List Char) :
    matchesCalendarPattern f = true ↔
      ∃ mid, f = calPrefix ++ mid ++ htmlExt := by
  constructor
  · intro h
    simp only [matchesCalendarPattern, Bool.and_eq_true,
      List.isPrefixOf_iff_prefix, List.isSuffixOf_iff_suffix,
      decide_eq_true_eq] at h
    obtain ⟨⟨⟨rest, hrest⟩, ⟨pre, hpre⟩⟩, hlen⟩ := h
    have hple : calPrefix.length ≤ pre.length := by
      have hl := congrArg List.length hpre
      simp only [List.length_append] at hl
      omega
    obtain ⟨mid, hmid⟩ := List.prefix_of_prefix_length_le
      ⟨rest, hrest⟩ ⟨htmlExt, hpre⟩ hple
    exact ⟨mid, by rw [← hpre, ← hmid]⟩
  · rintro ⟨mid, rfl⟩
    exact matchesCalendarPattern_output mid

/-- The merger recovers the person name from a generated filename. -/
theorem extractName_output {name : List Char}
    (hocc : ¬ (calPrefix <:+: name)) :
    extractName (output_filename name) = name := by
  unfold extractName output_filename
  rw [stemList_output]
  exact replaceAll_prefix_no_occ (by decide) hocc

/-- C10: person names round-trip through per-person output filenames: for a
display name with no path separator that does not itself contain the
`"commit_calendar - "` fragment, the generated filename matches the
merger's glob pattern and the merger extracts the original name back; and
the combined output `commit_calendar_all.html` never matches the pattern. -/
theorem filename_roundtrip_spec :
    (∀ name : List Char, '/' ∉ name → ¬ (calPrefix <:+: name) →
      matchesCalendarPattern (output_filename name) = true ∧
      extractName (output_filename name) = name) ∧
    matchesCalendarPattern "commit_calendar_all.html".data = false := by
  refine ⟨fun name _ h₂ =>
    ⟨matchesCalendarPattern_output name, extractName_output h₂⟩, by decide⟩

/-- Witness for C10 at the name "Alice". -/
theorem filename_roundtrip_spec_witness :
    matchesCalendarPattern (output_filename "Alice".data) = true ∧
    extractName (output_filename "Alice".data) = "Alice".data :=
  filename_roundtrip_spec.1 "Alice".data (by decide) (by decide)

/-- The merger's extraction loop keeps, in order, exactly the files whose
extraction succeeds, pairing each with its recovered data. -/
theorem merge_extract_eq {α : Type} (extract : List Char → Option α)
    (files : List (List Char × List Char)) :
    merge_extract extract files =
      files.filterMap (fun f => (extract f.1).map (fun d => (f.2, d))) := by
  unfold merge_extract
  suffices h : ∀ (fs : List (List Char × List Char)) (acc : List (List Char × α)),
      fs.foldl (fun cals f =>
        match extract f.1 with
        | some d => cals ++ [(f.2, d)]
        | none => cals) acc =
      acc ++ fs.filterMap (fun f => (extract f.1).map (fun d => (f.2, d))) by
    simpa using h files []
  intro fs
  induction fs with
  | nil => intro acc; simp
  | cons f t ih =>
      intro acc
      rw [List.foldl_cons]
      cases hx : extract f.1 with
      | none => simp [ih, List.filterMap_cons, hx]
      | some d => simp [ih, List.filterMap_cons, hx]

/-- Folding dict assignments with fresh, pairwise distinct keys appends the
pairs in order. -/
theorem dictInsertName_foldl_fresh {α : Type} :
    ∀ (cals : List (List Char × α)) (d : List (List Char × α)),
      (cals.map Prod.fst).Nodup →
      (∀ c ∈ cals, ∀ p ∈ d, p.1 ≠ c.1) →
      cals.foldl (fun js c => dictInsertName js c.1 c.2) d = d ++ cals := by
  intro cals
  induction cals with
  | nil => intro d _ _; simp
  | cons c t ih =>
      intro d hnd hfresh
      have hcond : ¬ ((d.any fun p => p.1 == c.1) = true) := by
        simp only [List.any_eq_true, beq_iff_eq, not_exists, not_and]
        intro p hp
        exact hfresh c (List.mem_cons_self c t) p hp
      have hins : dictInsertName d c.1 c.2 = d ++ [c] := by
        unfold dictInsertName
        rw [if_neg hcond]
      have hfresh₂ : ∀ c₂ ∈ t, ∀ p ∈ d ++ [c], p.1 ≠ c₂.1 := by
        intro c₂ hc₂ p hp
        rcases List.mem_append.mp hp with hpd | hpc
        · exact hfresh c₂ (List.mem_cons_of_mem c hc₂) p hpd
        · have hp₁ : p = c := by simpa using hpc
          subst hp₁
          simp only [List.map_cons, List.nodup_cons, List.mem_map] at hnd
          intro hcontra
          exact hnd.1 ⟨c₂, hc₂, hcontra.symm⟩
      have hnd₂ : (t.map Prod.fst).Nodup := by
        simp only [List.map_cons, List.nodup_cons] at hnd
        exact hnd.2
      rw [List.foldl_cons]
      show List.foldl (fun js c => dictInsertName js c.1 c.2)
        (dictInsertName d c.1 c.2) t = d ++ c :: t
      rw [hins, ih (d ++ [c]) hnd₂ hfresh₂]
      simp

/-- The files found by the merger are sorted by lower-cased person name. -/
theorem find_calendar_files_sorted (entries : List (List Char)) :
    (find_calendar_files entries).Pairwise fileLe :=
  List.sorted_insertionSort fileLe _

/-- C6 (amended): the merger skips each candidate file whose embedded data
cannot be recovered, aborts exactly when no file matched or none yielded
data, and otherwise produces one tab button per recovered file, in
case-insensitive person-name order; the all-calendars object has one key
per recovered file provided the extracted names are pairwise distinct
(duplicate names collapse into one key). With 3 candidate files of which 1
lacks the data variable, the combined document has exactly 2 tabs. -/
theorem merge_calendars_spec :
    (∀ (α : Type) (extract : List Char → Option α) (entries : List (List Char)),
      merge_extract extract (find_calendar_files entries) =
        (find_calendar_files entries).filterMap
          (fun f => (extract f.1).map (fun d => (f.2, d))) ∧
      (find_calendar_files entries = [] →
        merge_calendars_main extract entries = MergeResult.noFiles) ∧
      (find_calendar_files entries ≠ [] →
        merge_extract extract (find_calendar_files entries) = [] →
        merge_calendars_main extract entries = MergeResult.noData) ∧
      (merge_extract extract (find_calendar_files entries) ≠ [] →
        ∃ dataKeys,
          merge_calendars_main extract entries =
            MergeResult.merged
              ((merge_extract extract (find_calendar_files entries)).map
                Prod.fst) dataKeys ∧
          ((merge_extract extract (find_calendar_files entries)).map
              Prod.fst).Pairwise
            (fun a b => a.map Char.toLower ≤ b.map Char.toLower) ∧
          (((merge_extract extract (find_calendar_files entries)).map
              Prod.fst).Nodup →
            dataKeys =
              (merge_extract extract (find_calendar_files entries)).map
                Prod.fst))) ∧
    merge_calendars_main exExtract exEntries =
      MergeResult.merged ["A".data, "B".data] ["A".data, "B".data] := by
  constructor
  · intro α extract entries
    refine ⟨merge_extract_eq extract (find_calendar_files entries), ?_, ?_, ?_⟩
    · intro h
      simp [merge_calendars_main, h]
    · intro h1 h2
      simp [merge_calendars_main, List.isEmpty_iff, h1, h2]
    · intro hne
      have hfne : find_calendar_files entries ≠ [] := by
        intro hh
        apply hne
        rw [merge_extract_eq, hh]
        rfl
      refine ⟨((merge_extract extract (find_calendar_files entries)).foldl
        (fun js c => dictInsertName js c.1 c.2) []).map Prod.fst, ?_, ?_, ?_⟩
      · simp only [merge_calendars_main]
        rw [if_neg (by simpa [List.isEmpty_iff] using hfne),
          if_neg (by simpa [List.isEmpty_iff] using hne)]
      · rw [merge_extract_eq]
        refine List.Pairwise.map Prod.fst (fun a b h => h) ?_
        refine List.Pairwise.filterMap _
          (fun f g hfg x hx y hy => ?_) (find_calendar_files_sorted entries)
        cases hef : extract f.1 with
        | none => rw [hef] at hx; simp at hx
        | some d =>
            rw [hef] at hx
            cases heg : extract g.1 with
            | none => rw [heg] at hy; simp at hy
            | some d₂ =>
                rw [heg] at hy
                have hx₁ : (f.2, d) = x := by simpa using hx
                have hy₁ : (g.2, d₂) = y := by simpa using hy
                subst hx₁
                subst hy₁
                exact hfg
      · intro hnd
        rw [dictInsertName_foldl_fresh _ [] hnd (by simp)]
        simp
  · decide

/-- Counterexample to C6 as literally stated: two candidate files are both
recovered (two tab buttons) but their extracted names collide, so the
embedded all-calendars object carries a single key, not one key per
recovered file. -/
theorem merge_calendars_key_collision :
    merge_calendars_main colExtract colEntries =
      MergeResult.merged ["A".data, "A".data] ["A".data] ∧
    (["A".data, "A".data] : List (List Char)).length ≠
      (["A".data] : List (List Char)).length := by
  exact ⟨by decide, by decide⟩

/-- Witness for C6 at the concrete three-file scenario. -/
theorem merge_calendars_spec_witness :
    ∃ dataKeys,
      merge_calendars_main exExtract exEntries =
        MergeResult.merged
          ((merge_extract exExtract (find_calendar_files exEntries)).map
            Prod.fst) dataKeys ∧
      ((merge_extract exExtract (find_calendar_files exEntries)).map
          Prod.fst).Pairwise
        (fun a b => a.map Char.toLower ≤ b.map Char.toLower) ∧
      (((merge_extract exExtract (find_calendar_files exEntries)).map
          Prod.fst).Nodup →
        dataKeys =
          (merge_extract exExtract (find_calendar_files exEntries)).map
            Prod.fst) :=
  (merge_calendars_spec.1 Nat exExtract exEntries).2.2.2 (by decide)
